import Mathlib

/-!
A shallow embedding of the pack-generation pipeline of the Mononoke git
protocol crate (`eden/mononoke/git/protocol/src/generator.rs`), together with
theorems settling the specification claims about it.

Modelling conventions:
* `ChangesetId`, `ObjectId`, `GitSha1` are opaque identifiers, embedded as `Nat`
  (the hash conversions `to_object_id`, `from_object_id` are identities here).
* Async streams are embedded as the lists of elements they yield when fully
  drained; `try_buffered(n)` is order-preserving, so a drained buffered stream
  is an in-order effectful map (`mapE` below).  `try_buffer_unordered` is only
  used by `trees_and_blobs_count`, whose hash-set union result is order
  independent, so an in-order fold is value-equal to the code.
* Fallible code (`Result`) is embedded as `Except String`; error strings are
  representative, not byte-exact.
* `FxHashMap` values are embedded as association lists with first-match lookup
  and replace-on-insert (`insertKV`); `FxHashSet` as `Finset` or as lists
  queried only through membership.  Bookmark listings produce distinct keys,
  so collecting a stream of pairs into a hash map is embedded as the plain
  list of pairs.
* The `FetchAndStore` blobstore write-through is not modelled: within one
  request it only affects the blobstore cache, never the items produced.
-/

abbrev ChangesetId := Nat
abbrev ObjectId := Nat
abbrev GitSha1 := Nat
abbrev Bytes := List Nat
abbrev MPath := String

/-- Bookmark category: Mononoke's `BookmarkCategory` restricted to the two
categories the generator distinguishes (`is_tag`). -/
inductive BookmarkCategory
  | Branch
  | Tag
deriving DecidableEq, Repr

/-- Mononoke `BookmarkKey`: a structured ref name.  The name already carries
the `heads/...` or `tags/...` leading segment; `Display` prints just the name. -/
structure BookmarkKey where
  name : String
  category : BookmarkCategory
deriving DecidableEq, Repr

def BookmarkKey.isTag (b : BookmarkKey) : Bool :=
  b.category == BookmarkCategory.Tag

/-- `BookmarkKey::with_name`: a synthetic key with the default (branch)
category, as used when injecting `IncludedWithValue` refs. -/
def BookmarkKey.withName (s : String) : BookmarkKey :=
  ⟨s, BookmarkCategory.Branch⟩

/-- `RefTarget` from the protocol types: either a plain object id or an object
id with metadata (peeled-tag or symref-target annotations). -/
inductive RefTarget
  | Plain (oid : ObjectId)
  | WithMetadata (oid : ObjectId) (metadata : String)
deriving DecidableEq, Repr

def RefTarget.id : RefTarget → ObjectId
  | .Plain oid => oid
  | .WithMetadata oid _ => oid

/-- `RequestedRefs` from the protocol types.  Sets and maps are embedded as
lists (lookup is first-match). -/
inductive RequestedRefs
  | Included (refs : List String)
  | IncludedWithPrefixes (ref_prefixes : List String)
  | Excluded (refs : List String)
  | IncludedWithValue (refs : List (String × ChangesetId))
deriving DecidableEq, Repr

inductive SymrefFormat
  | NameOnly
  | NameWithTarget
deriving DecidableEq, Repr

inductive RequestedSymrefs
  | IncludeHead (format : SymrefFormat)
  | IncludeAll (format : SymrefFormat)
  | ExcludeAll
deriving DecidableEq, Repr

inductive TagInclusion
  | AsIs
  | Peeled
  | WithTarget
deriving DecidableEq, Repr

/-- `DeltaInclusion`.  The `f32` inclusion threshold is embedded as a rational
(every `f32` is a rational; the `as f64` widenings in `delta_below_threshold`
are exact and the `u64 as f64` size casts are embedded as exact numeric
coercions). -/
inductive DeltaInclusion
  | Include (inclusion_threshold : Rat)
  | Exclude
deriving DecidableEq, Repr

inductive PackfileItemInclusion
  | Generate
  | FetchOnly
  | FetchAndStore
deriving DecidableEq, Repr

/-- The `full` descriptor of a `GitDeltaManifestEntry` (object id plus size);
also reused as the embedding of `RichGitSha1` (id, kind and size) since the
kind plays no role in the logic under verification. -/
structure ObjectEntry where
  oid : ObjectId
  size : Nat
deriving DecidableEq, Repr

/-- `ObjectDelta` from git_types: a pre-computed delta of an object against
some base object. -/
structure ObjectDelta where
  origin : ChangesetId
  base : ObjectEntry
  instructions_chunk_count : Nat
  instructions_compressed_size : Nat
  instructions_uncompressed_size : Nat
deriving DecidableEq, Repr

/-- `GitDeltaManifestEntry`: the full form of an object plus the pre-computed
deltas available for it. -/
structure GitDeltaManifestEntry where
  full : ObjectEntry
  deltas : List ObjectDelta
deriving DecidableEq, Repr

/-- `BonsaiTagMappingEntry`: maps a tag name to the git hash of its annotated
tag object. -/
structure BonsaiTagMappingEntry where
  tag_name : String
  tag_hash : ObjectId
deriving DecidableEq, Repr

/-- A git symbolic-ref entry: the symref name (e.g. `HEAD`) and the typed ref
name it points to (`ref_name_with_type()`, e.g. `refs/heads/main`). -/
structure SymrefEntry where
  symref_name : String
  ref_name_with_type : String
deriving DecidableEq, Repr

/-- `PackfileItem`.  The item's own object id is recorded in each variant (the
real type derives it from the object bytes; the blobstore is content
addressed, so bytes fetched for an id hash back to that id). -/
inductive PackfileItem
  | BaseItem (oid : ObjectId) (bytes : Bytes)
  | EncodedBaseItem (oid : ObjectId) (bytes : Bytes)
  | DeltaItem (oid : ObjectId) (base_oid : ObjectId)
      (uncompressed_size : Nat) (instructions : Bytes)
deriving DecidableEq, Repr

def PackfileItem.oid : PackfileItem → ObjectId
  | .BaseItem oid _ => oid
  | .EncodedBaseItem oid _ => oid
  | .DeltaItem oid _ _ _ => oid

def PackfileItem.isDelta : PackfileItem → Bool
  | .DeltaItem _ _ _ _ => true
  | _ => false

/-- The repository handle: the collaborator capabilities consumed by the
generator (bookmarks, bonsai-git mapping, bonsai-tag mapping, symrefs, commit
graph, derived delta manifests, blobstore readers), embedded as data. -/
structure Repo where
  serverBookmarks : List (BookmarkKey × ChangesetId)
  bonsaiGit : List (ChangesetId × ObjectId)
  tagEntries : List BonsaiTagMappingEntry
  symrefs : List SymrefEntry
  ancestorsDifference : List ChangesetId → List ChangesetId → List ChangesetId
  deltaManifest : ChangesetId → List (MPath × GitDeltaManifestEntry)
  gitObjectBytes : ObjectId → Option Bytes
  nonBlobGitObjectBytes : ObjectId → Option Bytes
  packfileBaseItem : ObjectId → Option Bytes
  deltaChunk : ChangesetId → MPath → ChangesetId → MPath → Nat → Bytes

/-- First-match association-list lookup (hash-map `get`). -/
def lookup? {α β : Type} [DecidableEq α] : List (α × β) → α → Option β
  | [], _ => none
  | (k, v) :: rest, a => if k = a then some v else lookup? rest a

/-- Hash-map `insert`: replace the binding if the key is present, else append. -/
def insertKV {α β : Type} [DecidableEq α] (l : List (α × β)) (k : α) (v : β) :
    List (α × β) :=
  if (l.map Prod.fst).contains k then
    l.map (fun kv => if kv.1 = k then (k, v) else kv)
  else l ++ [(k, v)]

/-- In-order effectful map over a list: the embedding of an ordered buffered
stream of fallible per-element computations, fully drained. -/
def mapE {α β : Type} (f : α → Except String β) : List α → Except String (List β)
  | [] => Except.ok []
  | a :: rest =>
    match f a with
    | Except.error e => Except.error e
    | Except.ok b =>
      match mapE f rest with
      | Except.error e => Except.error e
      | Except.ok bs => Except.ok (b :: bs)

/-! ## The generator functions, translated from `generator.rs` -/

/-- The filtering closure inside `bookmarks`: decides whether a listed server
bookmark is kept for the request, and with which target changeset. -/
def keepBookmark (requested_refs : RequestedRefs) (bookmark : BookmarkKey)
    (cs_id : ChangesetId) : Option (BookmarkKey × ChangesetId) :=
  match requested_refs with
  | .Included refs => if bookmark.name ∈ refs then some (bookmark, cs_id) else none
  | .IncludedWithPrefixes ref_prefixes =>
    if ref_prefixes.any (fun p => ("refs/" ++ bookmark.name).startsWith p) then
      some (bookmark, cs_id)
    else none
  | .Excluded refs => if bookmark.name ∈ refs then none else some (bookmark, cs_id)
  | .IncludedWithValue refs =>
    (lookup? refs bookmark.name).map (fun cs => (bookmark, cs))

/-- `bookmarks`: list the publishing bookmarks, filter them against the
request, and for `IncludedWithValue` additionally insert every requested
(name, changeset) pair under a synthetic key built from the name. -/
def bookmarks (repo : Repo) (requested_refs : RequestedRefs) :
    List (BookmarkKey × ChangesetId) :=
  let filtered := repo.serverBookmarks.filterMap
    (fun bc => keepBookmark requested_refs bc.1 bc.2)
  match requested_refs with
  | .IncludedWithValue ref_value_map =>
    ref_value_map.foldl
      (fun acc nv => insertKV acc (BookmarkKey.withName nv.1) nv.2) filtered
  | _ => filtered

/-- The `full.oid` values of the subentries of a commit's git delta manifest,
in manifest order. -/
def manifestOids (repo : Repo) (cs : ChangesetId) : List ObjectId :=
  (repo.deltaManifest cs).map (fun pe => pe.2.full.oid)

/-- `trees_and_blobs_count`: per commit, collect the hash-set of `full.oid`
values of its delta-manifest subentries; concatenate (= union) the sets and
return the cardinality. -/
def trees_and_blobs_count (repo : Repo) (target_commits : List ChangesetId) : Nat :=
  (target_commits.foldl
    (fun acc cs => acc ∪ (manifestOids repo cs).toFinset)
    (∅ : Finset ObjectId)).card

/-- `delta_below_threshold`: the delta is used only if its compressed
instruction size is strictly below the full object size scaled by the
inclusion threshold. -/
def delta_below_threshold (delta : ObjectDelta) (entry : GitDeltaManifestEntry)
    (inclusion_threshold : Rat) : Bool :=
  decide ((delta.instructions_compressed_size : Rat) <
    (entry.full.size : Rat) * inclusion_threshold)

/-- The comparison used by `entry.deltas.sort_by`. -/
def icsLE (a b : ObjectDelta) : Prop :=
  a.instructions_compressed_size ≤ b.instructions_compressed_size

instance : DecidableRel icsLE := fun a b =>
  inferInstanceAs (Decidable (a.instructions_compressed_size ≤ b.instructions_compressed_size))

instance : IsTotal ObjectDelta icsLE :=
  ⟨fun a b => Nat.le_total a.instructions_compressed_size b.instructions_compressed_size⟩

instance : IsTrans ObjectDelta icsLE :=
  ⟨fun _ _ _ hab hbc => Nat.le_trans hab hbc⟩

/-- `Vec::sort_by` with a comparator on `instructions_compressed_size`:
a stable sort by that key.  Stable sorting is extensionally unique, so the
insertion sort used here yields exactly the list Rust's stable sort produces. -/
def sortDeltas (l : List ObjectDelta) : List ObjectDelta :=
  List.insertionSort icsLE l

/-- `delta_base`: under `Include`, sort the deltas by compressed instruction
size and keep the first exactly when it passes the threshold; under `Exclude`
return none. -/
def delta_base (entry : GitDeltaManifestEntry) (delta_inclusion : DeltaInclusion) :
    Option ObjectDelta :=
  match delta_inclusion with
  | .Include inclusion_threshold =>
    Option.filter (fun d => delta_below_threshold d entry inclusion_threshold)
      (sortDeltas entry.deltas).head?
  | .Exclude => none

/-- `ObjectIdentifierType`: identifier usable for any object (with type and
size) versus identifier usable only for non-blob objects. -/
inductive ObjectIdentifierType
  | AllObjects (sha : ObjectEntry)
  | NonBlobObjects (oid : ObjectId)
deriving DecidableEq, Repr

def ObjectIdentifierType.to_object_id : ObjectIdentifierType → ObjectId
  | .AllObjects sha => sha.oid
  | .NonBlobObjects oid => oid

/-- `object_bytes`: route the read through the any-object reader or the
non-blob reader depending on the identifier kind. -/
def object_bytes (repo : Repo) (id : ObjectIdentifierType) : Except String Bytes :=
  match id with
  | .AllObjects sha =>
    match repo.gitObjectBytes sha.oid with
    | some b => Except.ok b
    | none => Except.error "missing git object"
  | .NonBlobObjects oid =>
    match repo.nonBlobGitObjectBytes oid with
    | some b => Except.ok b
    | none => Except.error "missing non-blob git object"

/-- `base_packfile_item`: produce the base-form packfile item for an object
under the chosen `PackfileItemInclusion` policy. -/
def base_packfile_item (repo : Repo) (id : ObjectIdentifierType)
    (packfile_item_inclusion : PackfileItemInclusion) : Except String PackfileItem :=
  let git_objectid := id.to_object_id
  match packfile_item_inclusion with
  | .Generate =>
    match object_bytes repo id with
    | Except.error e => Except.error e
    | Except.ok bytes => Except.ok (PackfileItem.BaseItem git_objectid bytes)
  | .FetchOnly =>
    match repo.packfileBaseItem git_objectid with
    | some item => Except.ok (PackfileItem.EncodedBaseItem git_objectid item)
    | none => Except.error "packfile item absent in FetchOnly mode"
  | .FetchAndStore =>
    match repo.packfileBaseItem git_objectid with
    | some item => Except.ok (PackfileItem.EncodedBaseItem git_objectid item)
    | none =>
      match object_bytes repo id with
      | Except.error e => Except.error e
      | Except.ok bytes => Except.ok (PackfileItem.EncodedBaseItem git_objectid bytes)

/-- `fetch_delta_instructions` followed by the `try_fold` concatenation:
read the ordered instruction chunks and concatenate them in order. -/
def concatChunks (repo : Repo) (cs : ChangesetId) (path : MPath)
    (origin : ChangesetId) (count : Nat) : Bytes :=
  ((List.range count).map (fun i => repo.deltaChunk cs path origin path i)).foldl
    (fun acc b => acc ++ b) []

/-- `packfile_entry`: emit the delta form when `delta_base` selects a delta,
otherwise the base form of the full object. -/
def packfile_entry (repo : Repo) (delta_inclusion : DeltaInclusion)
    (packfile_item_inclusion : PackfileItemInclusion) (changeset_id : ChangesetId)
    (path : MPath) (entry : GitDeltaManifestEntry) : Except String PackfileItem :=
  match delta_base entry delta_inclusion with
  | some delta =>
    Except.ok (PackfileItem.DeltaItem entry.full.oid delta.base.oid
      delta.instructions_uncompressed_size
      (concatChunks repo changeset_id path delta.origin delta.instructions_chunk_count))
  | none =>
    base_packfile_item repo (ObjectIdentifierType.AllObjects entry.full)
      packfile_item_inclusion

/-- `blob_and_tree_packfile_items`: the per-changeset sub-stream, one item per
delta-manifest subentry, in manifest order. -/
def blob_and_tree_packfile_items (repo : Repo) (delta_inclusion : DeltaInclusion)
    (packfile_item_inclusion : PackfileItemInclusion) (changeset_id : ChangesetId) :
    Except String (List PackfileItem) :=
  mapE (fun pe => packfile_entry repo delta_inclusion packfile_item_inclusion
    changeset_id pe.1 pe.2) (repo.deltaManifest changeset_id)

/-- `blob_and_tree_packfile_stream`: ordered flat-map of the per-changeset
sub-streams over the target commits. -/
def blob_and_tree_packfile_stream (repo : Repo) (target_commits : List ChangesetId)
    (delta_inclusion : DeltaInclusion)
    (packfile_item_inclusion : PackfileItemInclusion) :
    Except String (List PackfileItem) :=
  match mapE (blob_and_tree_packfile_items repo delta_inclusion
      packfile_item_inclusion) target_commits with
  | Except.error e => Except.error e
  | Except.ok ls => Except.ok ls.flatten

/-- The per-commit body of `commit_packfile_stream`: resolve the commit's git
hash and produce its base packfile item. -/
def commit_packfile_item (repo : Repo)
    (packfile_item_inclusion : PackfileItemInclusion) (changeset_id : ChangesetId) :
    Except String PackfileItem :=
  match lookup? repo.bonsaiGit changeset_id with
  | none => Except.error "Git Sha1 not found for changeset"
  | some git_objectid =>
    base_packfile_item repo (ObjectIdentifierType.NonBlobObjects git_objectid)
      packfile_item_inclusion

/-- `commit_packfile_stream`: ordered map over the target commits. -/
def commit_packfile_stream (repo : Repo) (target_commits : List ChangesetId)
    (packfile_item_inclusion : PackfileItemInclusion) :
    Except String (List PackfileItem) :=
  mapE (commit_packfile_item repo packfile_item_inclusion) target_commits

/-- The filter inside `tag_packfile_stream`: a bookmark contributes a tag
entry exactly when it is tag-category and the bonsai-tag mapping has an entry
for its name (i.e. it is an annotated tag). -/
def annotatedTagEntries (repo : Repo) (bks : List (BookmarkKey × ChangesetId)) :
    List BonsaiTagMappingEntry :=
  bks.filterMap (fun bc =>
    if bc.1.isTag then
      repo.tagEntries.find? (fun e => e.tag_name == bc.1.name)
    else none)

/-- `tag_entries_to_stream`: one base packfile item per tag entry, keyed by
the tag object hash. -/
def tag_entries_to_stream (repo : Repo) (tag_entries : List BonsaiTagMappingEntry)
    (packfile_item_inclusion : PackfileItemInclusion) :
    Except String (List PackfileItem) :=
  mapE (fun entry => base_packfile_item repo
    (ObjectIdentifierType.NonBlobObjects entry.tag_hash) packfile_item_inclusion)
    tag_entries

/-- `tag_packfile_stream`: the annotated-tag entries selected from the
request's bookmarks with their count, plus their packfile items.  The count is
the number of annotated-tag entries; note it does not consult the request's
`tag_inclusion` at all. -/
def tag_packfile_stream (repo : Repo) (bks : List (BookmarkKey × ChangesetId))
    (packfile_item_inclusion : PackfileItemInclusion) :
    Except String (List PackfileItem × Nat) :=
  let annotated_tags := annotatedTagEntries repo bks
  match tag_entries_to_stream repo annotated_tags packfile_item_inclusion with
  | Except.error e => Except.error e
  | Except.ok items => Except.ok (items, annotated_tags.length)

/-- `bonsai_git_mappings_by_bonsai`: batch bonsai→git lookup over a list of
changesets (changesets without a mapping simply produce no row). -/
def bonsai_git_mappings_by_bonsai (repo : Repo) (cs_ids : List ChangesetId) :
    List (ChangesetId × ObjectId) :=
  cs_ids.filterMap (fun cs => (lookup? repo.bonsaiGit cs).map (fun oid => (cs, oid)))

/-- The bonsai-tag mapping's `get_all_entries`, keyed by tag name. -/
def tagNameMap (repo : Repo) : List (String × ObjectId) :=
  repo.tagEntries.map (fun e => (e.tag_name, e.tag_hash))

/-- Lowercase hex rendering of an object id (`to_hex`). -/
def oidHex (oid : ObjectId) : String :=
  String.mk (Nat.toDigits 16 oid)

/-- The per-bookmark body of `refs_to_include`: project one (bookmark,
changeset) pair to its (ref name, ref target) pair, dispatching annotated tags
on `tag_inclusion`.  Fails when a needed bonsai→git mapping is missing. -/
def ref_target_for (bonsai_git_map : List (ChangesetId × ObjectId))
    (bonsai_tag_map : List (String × ObjectId)) (bookmark : BookmarkKey)
    (cs_id : ChangesetId) (tag_inclusion : TagInclusion) :
    Except String (String × RefTarget) :=
  let fallback : Except String (String × RefTarget) :=
    match lookup? bonsai_git_map cs_id with
    | some git_objectid =>
      Except.ok ("refs/" ++ bookmark.name, RefTarget.Plain git_objectid)
    | none => Except.error "No Git ObjectId found for changeset during refs-to-include"
  if bookmark.isTag then
    match tag_inclusion with
    | .AsIs =>
      match lookup? bonsai_tag_map bookmark.name with
      | some git_objectid =>
        Except.ok ("refs/" ++ bookmark.name, RefTarget.Plain git_objectid)
      | none => fallback
    | .Peeled =>
      match lookup? bonsai_git_map cs_id with
      | some git_objectid =>
        Except.ok ("refs/" ++ bookmark.name, RefTarget.Plain git_objectid)
      | none => Except.error "No Git ObjectId found for changeset during refs-to-include"
    | .WithTarget =>
      match lookup? bonsai_tag_map bookmark.name with
      | some tag_objectid =>
        match lookup? bonsai_git_map cs_id with
        | some commit_objectid =>
          Except.ok ("refs/" ++ bookmark.name,
            RefTarget.WithMetadata tag_objectid ("peeled:" ++ oidHex commit_objectid))
        | none =>
          Except.error "No Git ObjectId found for changeset during refs-to-include"
      | none => fallback
  else fallback

/-- `refs_to_include`: project every selected bookmark to its ref entry. -/
def refs_to_include (repo : Repo) (bks : List (BookmarkKey × ChangesetId))
    (tag_inclusion : TagInclusion) : Except String (List (String × RefTarget)) :=
  let bonsai_git_map := bonsai_git_mappings_by_bonsai repo (bks.map Prod.snd)
  mapE (fun bc => ref_target_for bonsai_git_map (tagNameMap repo) bc.1 bc.2
    tag_inclusion) bks

/-- `symref_target`: the ref target generated for a symref under the requested
symref format. -/
def symref_target (symref_target_name : String) (commit_id : ObjectId)
    (symref_format : SymrefFormat) : RefTarget :=
  match symref_format with
  | .NameWithTarget =>
    RefTarget.WithMetadata commit_id ("symref-target:" ++ symref_target_name)
  | .NameOnly => RefTarget.Plain commit_id

/-- `get_ref_by_symref` for the fixed name `HEAD`. -/
def headSymref (repo : Repo) : Option SymrefEntry :=
  repo.symrefs.find? (fun e => e.symref_name == "HEAD")

/-- `include_symrefs`: resolve the requested symrefs against the already
computed ref map and extend the map with them.  Fails when the symref (or the
ref it points to) cannot be resolved. -/
def include_symrefs (repo : Repo) (requested_symrefs : RequestedSymrefs)
    (refs : List (String × RefTarget)) : Except String (List (String × RefTarget)) :=
  let mapping : Except String (List (String × RefTarget)) :=
    match requested_symrefs with
    | .IncludeHead symref_format =>
      match headSymref repo with
      | none => Except.error "HEAD reference not found for repo"
      | some head_ref =>
        match lookup? refs head_ref.ref_name_with_type with
        | none => Except.error "HEAD reference points to a ref which does not exist"
        | some target =>
          Except.ok [(head_ref.symref_name,
            symref_target head_ref.ref_name_with_type target.id symref_format)]
    | .IncludeAll symref_format =>
      mapE (fun entry =>
        match lookup? refs entry.ref_name_with_type with
        | none => Except.error "symref points to a ref which does not exist"
        | some target =>
          Except.ok (entry.symref_name,
            symref_target entry.ref_name_with_type target.id symref_format))
        repo.symrefs
    | .ExcludeAll => Except.ok []
  match mapping with
  | Except.error e => Except.error e
  | Except.ok symref_commit_mapping =>
    Except.ok (symref_commit_mapping.foldl (fun acc kv => insertKV acc kv.1 kv.2) refs)

/-- `PackItemStreamRequest`. -/
structure PackItemStreamRequest where
  requested_refs : RequestedRefs
  have_heads : List ChangesetId
  tag_inclusion : TagInclusion
  requested_symrefs : RequestedSymrefs
  delta_inclusion : DeltaInclusion
  packfile_item_inclusion : PackfileItemInclusion
deriving DecidableEq, Repr

/-- `PackItemStreamResponse`: the fully drained item stream, the declared
object count and the ref map. -/
structure PackItemStreamResponse where
  items : List PackfileItem
  object_count : Nat
  included_refs : List (String × RefTarget)
deriving DecidableEq, Repr

/-- The target-commit computation of `generate_pack_item_stream`: collect
`ancestors_difference` of the bookmark targets and the have-heads, then
reverse the list (so that delta bases precede their dependents). -/
def target_commit_list (repo : Repo) (bks : List (BookmarkKey × ChangesetId))
    (have_heads : List ChangesetId) : List ChangesetId :=
  (repo.ancestorsDifference (bks.map Prod.snd) have_heads).reverse

/-- `generate_pack_item_stream`: the clone-path handler.  The response stream
is the concatenation tag-items ++ commit-items ++ blob/tree-items and the
declared object count is commits + distinct trees/blobs + annotated tags.
(The embedding drains the lazily created sub-streams eagerly; for error
results only the fact of failure, not which error, is faithful.) -/
def generate_pack_item_stream (repo : Repo) (request : PackItemStreamRequest) :
    Except String PackItemStreamResponse :=
  let bks := bookmarks repo request.requested_refs
  let target_commits := target_commit_list repo bks request.have_heads
  let commits_count := target_commits.length
  let tb_count := trees_and_blobs_count repo target_commits
  match refs_to_include repo bks request.tag_inclusion with
  | Except.error e => Except.error e
  | Except.ok refs1 =>
    match include_symrefs repo request.requested_symrefs refs1 with
    | Except.error e => Except.error e
    | Except.ok refs2 =>
      match blob_and_tree_packfile_stream repo target_commits
          request.delta_inclusion request.packfile_item_inclusion with
      | Except.error e => Except.error e
      | Except.ok blob_and_tree_items =>
        match commit_packfile_stream repo target_commits
            request.packfile_item_inclusion with
        | Except.error e => Except.error e
        | Except.ok commit_items =>
          match tag_packfile_stream repo bks request.packfile_item_inclusion with
          | Except.error e => Except.error e
          | Except.ok (tag_items, tags_count) =>
            Except.ok
              { items := tag_items ++ commit_items ++ blob_and_tree_items
                object_count := commits_count + tb_count + tags_count
                included_refs := refs2 }

/-- The bonsai-git mapping queried by git sha (`get` with
`BonsaisOrGitShas::GitSha1`): first table row whose git hash matches. -/
def gitToBonsai (repo : Repo) (sha : GitSha1) : Option ChangesetId :=
  (repo.bonsaiGit.find? (fun p => p.2 == sha)).map Prod.fst

/-- `tagged_commits`: resolve tag-object hashes to the commits pointed to by
the tags of those names (via the bonsai-tag mapping and the `tags/` bookmark
listing). -/
def tagged_commits (repo : Repo) (git_shas : List GitSha1) : List ChangesetId :=
  if git_shas.isEmpty then []
  else
    let tag_names := (repo.tagEntries.filter
      (fun e => git_shas.contains e.tag_hash)).map (fun e => e.tag_name)
    (repo.serverBookmarks.filter
      (fun bc => bc.1.name.startsWith "tags/")).filterMap
      (fun bc => if tag_names.contains bc.1.name then some bc.2 else none)

/-- `git_shas_to_bonsais`: batch-translate git hashes to bonsai changesets;
hashes without a bonsai-git row are treated as candidate annotated tags and
resolved through `tagged_commits`.  (The SQL batch get returns one row per
matching distinct hash, hence the `dedup`.) -/
def git_shas_to_bonsais (repo : Repo) (oids : List GitSha1) : List ChangesetId :=
  let entries := (oids.dedup).filterMap
    (fun sha => (gitToBonsai repo sha).map (fun bcs => (sha, bcs)))
  let tag_shas := oids.filter
    (fun sha => !(entries.any (fun entry => entry.1 == sha)))
  let commits_from_tags := tagged_commits repo tag_shas
  commits_from_tags ++ entries.map Prod.snd

/-! ## Helper lemmas -/

theorem mapE_ok_forall₂ {α β : Type} {f : α → Except String β} :
    ∀ {l : List α} {res : List β}, mapE f l = Except.ok res →
      List.Forall₂ (fun a b => f a = Except.ok b) l res := by
  intro l
  induction l with
  | nil =>
    intro res h
    simp only [mapE, Except.ok.injEq] at h
    rw [← h]
    exact List.Forall₂.nil
  | cons a rest ih =>
    intro res h
    simp only [mapE] at h
    cases hf : f a with
    | error e => rw [hf] at h; exact absurd h (by simp)
    | ok b =>
      rw [hf] at h
      cases hr : mapE f rest with
      | error e => rw [hr] at h; exact absurd h (by simp)
      | ok bs =>
        rw [hr] at h
        simp only [Except.ok.injEq] at h
        rw [← h]
        exact List.Forall₂.cons hf (ih hr)

theorem mapE_ok_length {α β : Type} {f : α → Except String β} {l : List α}
    {res : List β} (h : mapE f l = Except.ok res) : res.length = l.length :=
  (mapE_ok_forall₂ h).length_eq.symm

theorem forall₂_ok_map {α β γ : Type} {f : α → Except String β} {g : β → γ}
    {gl : α → γ} (hfg : ∀ a b, f a = Except.ok b → g b = gl a) :
    ∀ {l : List α} {res : List β},
      List.Forall₂ (fun a b => f a = Except.ok b) l res → res.map g = l.map gl := by
  intro l res hf
  induction hf with
  | nil => rfl
  | cons hab _ ih => simp only [List.map_cons, hfg _ _ hab, ih]

theorem mapE_ok_map {α β γ : Type} {f : α → Except String β} {g : β → γ}
    {gl : α → γ} (hfg : ∀ a b, f a = Except.ok b → g b = gl a) {l : List α}
    {res : List β} (hok : mapE f l = Except.ok res) : res.map g = l.map gl :=
  forall₂_ok_map hfg (mapE_ok_forall₂ hok)

theorem base_packfile_item_ok {repo : Repo} {id : ObjectIdentifierType}
    {pii : PackfileItemInclusion} {it : PackfileItem}
    (h : base_packfile_item repo id pii = Except.ok it) :
    it.oid = id.to_object_id ∧ it.isDelta = false := by
  simp only [base_packfile_item] at h
  cases pii <;> simp only at h <;> repeat' split at h
  all_goals
    first
      | exact Except.noConfusion h
      | (injection h with h2; rw [← h2]; exact ⟨rfl, rfl⟩)

theorem packfile_entry_ok_oid {repo : Repo} {di : DeltaInclusion}
    {pii : PackfileItemInclusion} {cs : ChangesetId} {p : MPath}
    {entry : GitDeltaManifestEntry} {it : PackfileItem}
    (h : packfile_entry repo di pii cs p entry = Except.ok it) :
    it.oid = entry.full.oid := by
  simp only [packfile_entry] at h
  split at h
  · cases h; rfl
  · exact (base_packfile_item_ok h).1

theorem packfile_entry_ok_delta {repo : Repo} {di : DeltaInclusion}
    {pii : PackfileItemInclusion} {cs : ChangesetId} {p : MPath}
    {entry : GitDeltaManifestEntry} {o b : ObjectId} {u : Nat} {ins : Bytes}
    (h : packfile_entry repo di pii cs p entry =
      Except.ok (PackfileItem.DeltaItem o b u ins)) :
    ∃ d, delta_base entry di = some d ∧ d.base.oid = b := by
  simp only [packfile_entry] at h
  split at h
  next d hd => cases h; exact ⟨d, hd, rfl⟩
  next hd =>
    have hfalse := (base_packfile_item_ok h).2
    simp [PackfileItem.isDelta] at hfalse

theorem sortDeltas_head_min {l : List ObjectDelta} {d : ObjectDelta}
    (h : (sortDeltas l).head? = some d) :
    d ∈ l ∧ ∀ d' ∈ l,
      d.instructions_compressed_size ≤ d'.instructions_compressed_size := by
  have hperm := List.perm_insertionSort icsLE l
  have hsort := List.sorted_insertionSort icsLE l
  cases hs : sortDeltas l with
  | nil => rw [hs] at h; exact absurd h (by simp)
  | cons x xs =>
    rw [hs] at h
    simp only [List.head?_cons, Option.some.injEq] at h
    rw [← h]
    simp only [sortDeltas] at hs
    rw [hs] at hperm hsort
    constructor
    · exact hperm.mem_iff.mp (List.mem_cons_self x xs)
    · intro d' hd'
      rcases List.mem_cons.mp (hperm.mem_iff.mpr hd') with heq | hmem
      · rw [heq]
      · exact (List.sorted_cons.mp hsort).1 d' hmem

theorem sortDeltas_head_none {l : List ObjectDelta}
    (h : (sortDeltas l).head? = none) : l = [] := by
  have hperm := List.perm_insertionSort icsLE l
  cases hs : sortDeltas l with
  | nil =>
    simp only [sortDeltas] at hs
    rw [hs] at hperm
    exact hperm.symm.eq_nil
  | cons x xs => rw [hs] at h; exact absurd h (by simp)

/-- C3: `delta_base` returns none under `Exclude`; under `Include t` it
returns a delta with minimal compressed instruction size exactly when that
size is strictly below `full.size × t`, and none otherwise. -/
theorem delta_base_spec (entry : GitDeltaManifestEntry) (t : Rat) :
    delta_base entry DeltaInclusion.Exclude = none
    ∧ (∀ d, delta_base entry (DeltaInclusion.Include t) = some d →
        d ∈ entry.deltas
        ∧ (∀ d' ∈ entry.deltas,
            d.instructions_compressed_size ≤ d'.instructions_compressed_size)
        ∧ (d.instructions_compressed_size : Rat) < (entry.full.size : Rat) * t)
    ∧ ((delta_base entry (DeltaInclusion.Include t) = none) ↔
        (∀ d ∈ entry.deltas,
          (∀ d' ∈ entry.deltas,
            d.instructions_compressed_size ≤ d'.instructions_compressed_size) →
          ¬((d.instructions_compressed_size : Rat) < (entry.full.size : Rat) * t))) := by
  refine ⟨rfl, ?_, ?_⟩
  · intro d h
    simp only [delta_base] at h
    cases hh : (sortDeltas entry.deltas).head? with
    | none => rw [hh] at h; exact absurd h (by simp [Option.filter])
    | some h0 =>
      rw [hh] at h
      simp only [Option.filter] at h
      split at h
      next hpred =>
        simp only [Option.some.injEq] at h
        rw [← h]
        obtain ⟨hmem, hmin⟩ := sortDeltas_head_min hh
        exact ⟨hmem, hmin, of_decide_eq_true hpred⟩
      next => exact absurd h (by simp)
  · constructor
    · intro hnone d hd hmin hthr
      cases hh : (sortDeltas entry.deltas).head? with
      | none =>
        have := sortDeltas_head_none hh
        rw [this] at hd
        exact absurd hd (List.not_mem_nil d)
      | some h0 =>
        obtain ⟨hmem0, hmin0⟩ := sortDeltas_head_min hh
        have hics : h0.instructions_compressed_size = d.instructions_compressed_size :=
          Nat.le_antisymm (hmin0 d hd) (hmin h0 hmem0)
        have hpred : delta_below_threshold h0 entry t = true := by
          simp only [delta_below_threshold, hics]
          exact decide_eq_true hthr
        simp [delta_base, hh, Option.filter, hpred] at hnone
    · intro hall
      cases hh : (sortDeltas entry.deltas).head? with
      | none => simp [delta_base, hh, Option.filter]
      | some h0 =>
        obtain ⟨hmem0, hmin0⟩ := sortDeltas_head_min hh
        have hpred : delta_below_threshold h0 entry t = false := by
          by_contra hcon
          have htrue : delta_below_threshold h0 entry t = true := by
            cases hb : delta_below_threshold h0 entry t
            · exact absurd hb hcon
            · rfl
          exact hall h0 hmem0 hmin0 (of_decide_eq_true htrue)
        simp [delta_base, hh, Option.filter, hpred]

/-- Data for the C3 witness: an entry of size 10 with deltas of compressed
sizes 3 and 5, threshold 1. -/
def deltaSmall : ObjectDelta := ⟨0, ⟨20, 5⟩, 1, 3, 7⟩

def deltaBig : ObjectDelta := ⟨0, ⟨20, 5⟩, 1, 5, 9⟩

def entryForC3 : GitDeltaManifestEntry := ⟨⟨21, 10⟩, [deltaBig, deltaSmall]⟩

/-- Witness for C3 at a concrete entry and threshold. -/
theorem delta_base_spec_witness :
    deltaSmall ∈ entryForC3.deltas
    ∧ (∀ d' ∈ entryForC3.deltas,
        deltaSmall.instructions_compressed_size ≤ d'.instructions_compressed_size)
    ∧ (deltaSmall.instructions_compressed_size : Rat) <
        (entryForC3.full.size : Rat) * (1 : Rat) :=
  (delta_base_spec entryForC3 1).2.1 deltaSmall (by
    have hthr : delta_below_threshold deltaSmall entryForC3 1 = true := by
      rw [delta_below_threshold, decide_eq_true_eq]
      norm_num [deltaSmall, entryForC3]
    simp only [deltaSmall, deltaBig, entryForC3] at hthr
    simp [delta_base, sortDeltas, List.insertionSort, List.orderedInsert, icsLE,
      deltaSmall, deltaBig, entryForC3, Option.filter, hthr])

/-- C10: an entry with no deltas always takes the base path: `delta_base` is
none for every `DeltaInclusion`, and `packfile_entry` produces the base-form
item (never a delta). -/
theorem empty_deltas_spec (repo : Repo) (di : DeltaInclusion)
    (pii : PackfileItemInclusion) (cs : ChangesetId) (p : MPath)
    (entry : GitDeltaManifestEntry) (h : entry.deltas = []) :
    delta_base entry di = none
    ∧ packfile_entry repo di pii cs p entry =
        base_packfile_item repo (ObjectIdentifierType.AllObjects entry.full) pii
    ∧ ∀ it, packfile_entry repo di pii cs p entry = Except.ok it →
        it.isDelta = false := by
  have hbase : delta_base entry di = none := by
    cases di with
    | Exclude => rfl
    | Include t => simp [delta_base, sortDeltas, h, List.insertionSort, Option.filter]
  refine ⟨hbase, ?_, ?_⟩
  · simp [packfile_entry, hbase]
  · intro it hit
    simp only [packfile_entry, hbase] at hit
    exact (base_packfile_item_ok hit).2

/-- A concrete repo used by several witnesses: one commit (changeset 1, git
object 10), a branch `heads/main` and an annotated tag `tags/v1` (tag object
42), a delta manifest with a tree object 20 and a blob 21 stored as a delta
against 20. -/
def repoMain : Repo where
  serverBookmarks :=
    [(⟨"heads/main", BookmarkCategory.Branch⟩, 1),
     (⟨"tags/v1", BookmarkCategory.Tag⟩, 1)]
  bonsaiGit := [(1, 10)]
  tagEntries := [⟨"tags/v1", 42⟩]
  symrefs := [⟨"HEAD", "refs/heads/main"⟩]
  ancestorsDifference := fun _ _ => [1]
  deltaManifest := fun cs =>
    if cs = 1 then
      [("a", ⟨⟨20, 5⟩, []⟩),
       ("b", ⟨⟨21, 100⟩, [⟨1, ⟨20, 5⟩, 1, 3, 7⟩]⟩)]
    else []
  gitObjectBytes := fun oid => some [oid]
  nonBlobGitObjectBytes := fun oid => some [oid]
  packfileBaseItem := fun _ => none
  deltaChunk := fun _ _ _ _ _ => [9]

/-- Witness for C10 at a concrete no-delta entry. -/
theorem empty_deltas_spec_witness :
    delta_base (⟨⟨20, 5⟩, []⟩ : GitDeltaManifestEntry) DeltaInclusion.Exclude = none
    ∧ packfile_entry repoMain DeltaInclusion.Exclude PackfileItemInclusion.Generate
        1 "a" ⟨⟨20, 5⟩, []⟩ =
      base_packfile_item repoMain
        (ObjectIdentifierType.AllObjects (⟨20, 5⟩ : ObjectEntry))
        PackfileItemInclusion.Generate
    ∧ ∀ it, packfile_entry repoMain DeltaInclusion.Exclude
        PackfileItemInclusion.Generate 1 "a" ⟨⟨20, 5⟩, []⟩ = Except.ok it →
        it.isDelta = false :=
  empty_deltas_spec repoMain DeltaInclusion.Exclude PackfileItemInclusion.Generate
    1 "a" ⟨⟨20, 5⟩, []⟩ rfl

theorem foldl_union_toFinset (repo : Repo) (l : List ChangesetId)
    (acc : Finset ObjectId) :
    l.foldl (fun a cs => a ∪ (manifestOids repo cs).toFinset) acc =
      acc ∪ (l.flatMap (manifestOids repo)).toFinset := by
  induction l generalizing acc with
  | nil => simp
  | cons c rest ih =>
    simp [List.flatMap_cons, List.toFinset_append, ih, Finset.union_assoc]

theorem trees_and_blobs_count_eq_dedup (repo : Repo) (cs : List ChangesetId) :
    trees_and_blobs_count repo cs =
      ((cs.flatMap (manifestOids repo)).dedup).length := by
  rw [trees_and_blobs_count, foldl_union_toFinset, Finset.empty_union,
    List.card_toFinset]

/-- A repo whose two commits introduce the same object (oid 20), used to show
that `trees_and_blobs_count` deduplicates across commits. -/
def repoShared : Repo where
  serverBookmarks := []
  bonsaiGit := [(0, 10), (1, 11)]
  tagEntries := []
  symrefs := []
  ancestorsDifference := fun _ _ => [1, 0]
  deltaManifest := fun cs =>
    if cs = 0 then [("a", ⟨⟨20, 1⟩, []⟩)]
    else if cs = 1 then [("b", ⟨⟨20, 1⟩, []⟩)] else []
  gitObjectBytes := fun oid => some [oid]
  nonBlobGitObjectBytes := fun oid => some [oid]
  packfileBaseItem := fun _ => none
  deltaChunk := fun _ _ _ _ _ => []

/-- C5 counterexample: with two commits whose manifests contain the same oid,
`trees_and_blobs_count` returns 1, while the claimed per-commit sum of
distinct-oid counts is 2. -/
theorem trees_and_blobs_count_not_sum :
    trees_and_blobs_count repoShared [0, 1] = 1
    ∧ ((manifestOids repoShared 0).dedup.length
        + (manifestOids repoShared 1).dedup.length) = 2 := by
  constructor <;> rfl

/-- C5 (amended): `trees_and_blobs_count` returns the number of distinct
`full.oid` values across all the target commits' manifests combined (the
cardinality of the union of the per-commit sets), not the per-commit sum. -/
theorem trees_and_blobs_count_distinct_union (repo : Repo)
    (target_commits : List ChangesetId) :
    trees_and_blobs_count repo target_commits =
      ((target_commits.flatMap (manifestOids repo)).dedup).length :=
  trees_and_blobs_count_eq_dedup repo target_commits

theorem blob_and_tree_items_oids {repo : Repo} {di : DeltaInclusion}
    {pii : PackfileItemInclusion} {cs : ChangesetId} {items : List PackfileItem}
    (h : blob_and_tree_packfile_items repo di pii cs = Except.ok items) :
    items.map PackfileItem.oid = manifestOids repo cs :=
  mapE_ok_map (fun _ _ hit => packfile_entry_ok_oid hit) h

theorem forall₂_flatten_oids {repo : Repo} {di : DeltaInclusion}
    {pii : PackfileItemInclusion} :
    ∀ {commits : List ChangesetId} {ls : List (List PackfileItem)},
      List.Forall₂ (fun c l =>
        blob_and_tree_packfile_items repo di pii c = Except.ok l) commits ls →
      ls.flatten.map PackfileItem.oid = commits.flatMap (manifestOids repo) := by
  intro commits ls hf
  induction hf with
  | nil => rfl
  | cons hab _ ih =>
    simp only [List.flatten_cons, List.flatMap_cons, List.map_append, ih,
      blob_and_tree_items_oids hab]

theorem blob_and_tree_stream_oids {repo : Repo} {di : DeltaInclusion}
    {pii : PackfileItemInclusion} {commits : List ChangesetId}
    {items : List PackfileItem}
    (h : blob_and_tree_packfile_stream repo commits di pii = Except.ok items) :
    items.map PackfileItem.oid = commits.flatMap (manifestOids repo) := by
  simp only [blob_and_tree_packfile_stream] at h
  cases hm : mapE (blob_and_tree_packfile_items repo di pii) commits with
  | error e => rw [hm] at h; exact Except.noConfusion h
  | ok ls =>
    rw [hm] at h
    injection h with h2
    rw [← h2]
    exact forall₂_flatten_oids (mapE_ok_forall₂ hm)

theorem tag_entries_to_stream_oids {repo : Repo}
    {entries : List BonsaiTagMappingEntry} {pii : PackfileItemInclusion}
    {items : List PackfileItem}
    (h : tag_entries_to_stream repo entries pii = Except.ok items) :
    items.map PackfileItem.oid = entries.map BonsaiTagMappingEntry.tag_hash :=
  mapE_ok_map (fun _ _ hit => (base_packfile_item_ok hit).1) h

theorem commit_packfile_item_ok {repo : Repo} {pii : PackfileItemInclusion}
    {cs : ChangesetId} {it : PackfileItem}
    (h : commit_packfile_item repo pii cs = Except.ok it) :
    lookup? repo.bonsaiGit cs = some it.oid ∧ it.isDelta = false := by
  simp only [commit_packfile_item] at h
  cases hl : lookup? repo.bonsaiGit cs with
  | none => rw [hl] at h; exact Except.noConfusion h
  | some sha =>
    rw [hl] at h
    obtain ⟨ho, hd⟩ := base_packfile_item_ok h
    refine ⟨?_, hd⟩
    rw [ho]
    rfl

theorem forall₂_mem_right {α β : Type} {R : α → β → Prop} :
    ∀ {l : List α} {res : List β}, List.Forall₂ R l res →
      ∀ b ∈ res, ∃ a ∈ l, R a b := by
  intro l res hf
  induction hf with
  | nil => intro b hb; exact absurd hb (List.not_mem_nil b)
  | cons hab _ ih =>
    intro b hb
    rcases List.mem_cons.mp hb with rfl | hmem
    · exact ⟨_, List.mem_cons_self _ _, hab⟩
    · obtain ⟨a, ha, hr⟩ := ih b hmem
      exact ⟨a, List.mem_cons_of_mem _ ha, hr⟩

/-- A repo with one commit whose manifest has two subentries sharing the same
`full.oid` (two paths with identical content). -/
def repoDup : Repo where
  serverBookmarks := [(⟨"heads/main", BookmarkCategory.Branch⟩, 1)]
  bonsaiGit := [(1, 10)]
  tagEntries := []
  symrefs := []
  ancestorsDifference := fun _ _ => [1]
  deltaManifest := fun cs =>
    if cs = 1 then [("a", ⟨⟨20, 3⟩, []⟩), ("b", ⟨⟨20, 3⟩, []⟩)] else []
  gitObjectBytes := fun oid => some [oid]
  nonBlobGitObjectBytes := fun oid => some [oid]
  packfileBaseItem := fun _ => none
  deltaChunk := fun _ _ _ _ _ => []

/-- A basic request: all refs, no symrefs, tags as-is, no deltas, generated
base items. -/
def requestBasic : PackItemStreamRequest where
  requested_refs := RequestedRefs.Excluded []
  have_heads := []
  tag_inclusion := TagInclusion.AsIs
  requested_symrefs := RequestedSymrefs.ExcludeAll
  delta_inclusion := DeltaInclusion.Exclude
  packfile_item_inclusion := PackfileItemInclusion.Generate

/-- C1 counterexample: on `repoDup` the pipeline succeeds, the stream yields 3
items but the declared `object_count` is 2 (the count deduplicates oids, the
stream emits one item per manifest subentry). -/
theorem object_count_mismatch_on_duplicate_oids :
    (generate_pack_item_stream repoDup requestBasic).toOption.map
      (fun resp => (resp.items.length, resp.object_count)) = some (3, 2) := rfl

/-- C1 (amended): whenever the `full.oid` values of all manifest subentries
across the target commits are pairwise distinct, the composed stream yields
exactly `object_count` items. -/
theorem object_count_eq_stream_length_of_nodup (repo : Repo)
    (request : PackItemStreamRequest) (resp : PackItemStreamResponse)
    (hnd : ((target_commit_list repo (bookmarks repo request.requested_refs)
        request.have_heads).flatMap (manifestOids repo)).Nodup)
    (hok : generate_pack_item_stream repo request = Except.ok resp) :
    resp.items.length = resp.object_count := by
  simp only [generate_pack_item_stream] at hok
  set bks := bookmarks repo request.requested_refs with hbks
  set tcl := target_commit_list repo bks request.have_heads with htcl
  split at hok
  next => exact Except.noConfusion hok
  next refs1 h1 =>
  split at hok
  next => exact Except.noConfusion hok
  next refs2 h2 =>
  split at hok
  next => exact Except.noConfusion hok
  next bt h3 =>
  split at hok
  next => exact Except.noConfusion hok
  next citems h4 =>
  split at hok
  next => exact Except.noConfusion hok
  next titems tcount h5 =>
  injection hok with hok2
  rw [← hok2]
  simp only [List.length_append]
  have clen : citems.length = tcl.length := mapE_ok_length h4
  have btlen : bt.length = (tcl.flatMap (manifestOids repo)).length := by
    have := congrArg List.length (blob_and_tree_stream_oids h3)
    simpa using this
  have tb : trees_and_blobs_count repo tcl = (tcl.flatMap (manifestOids repo)).length := by
    rw [trees_and_blobs_count_eq_dedup, List.dedup_eq_self.mpr hnd]
  have tlen : titems.length = tcount := by
    simp only [tag_packfile_stream] at h5
    cases h6 : tag_entries_to_stream repo (annotatedTagEntries repo bks)
        request.packfile_item_inclusion with
    | error e => rw [h6] at h5; exact Except.noConfusion h5
    | ok titems2 =>
      rw [h6] at h5
      injection h5 with h5b
      injection h5b with hta htb
      rw [← hta, ← htb]
      exact mapE_ok_length h6
  rw [clen, btlen, tb, tlen]
  omega

/-- The successful response of `generate_pack_item_stream` on `repoMain` with
`requestBasic`. -/
def respMain : PackItemStreamResponse where
  items :=
    [PackfileItem.BaseItem 42 [42], PackfileItem.BaseItem 10 [10],
     PackfileItem.BaseItem 20 [20], PackfileItem.BaseItem 21 [21]]
  object_count := 4
  included_refs :=
    [("refs/heads/main", RefTarget.Plain 10), ("refs/tags/v1", RefTarget.Plain 42)]

/-- Witness for the amended C1 at a concrete repo and request. -/
theorem object_count_eq_stream_length_witness :
    respMain.items.length = respMain.object_count :=
  object_count_eq_stream_length_of_nodup repoMain requestBasic respMain
    (by decide) rfl

theorem delta_base_mem {entry : GitDeltaManifestEntry} {di : DeltaInclusion}
    {d : ObjectDelta} (h : delta_base entry di = some d) : d ∈ entry.deltas := by
  cases di with
  | Exclude => exact Option.noConfusion h
  | Include t =>
    simp only [delta_base] at h
    cases hh : (sortDeltas entry.deltas).head? with
    | none => rw [hh] at h; simp [Option.filter] at h
    | some h0 =>
      rw [hh] at h
      simp only [Option.filter] at h
      split at h
      · injection h with h2; rw [← h2]; exact (sortDeltas_head_min hh).1
      · exact Option.noConfusion h

/-- Modelled from the spec: well-formedness of the derived Git delta manifests
(the derivation lives outside this crate).  Walking a manifest in order, every
delta of a subentry may only reference a base oid from the `seen` set: objects
of previously processed commits or earlier subentries of the same manifest. -/
def manifestBasesOk (seen : List ObjectId) :
    List (MPath × GitDeltaManifestEntry) → Bool
  | [] => true
  | pe :: rest =>
    pe.2.deltas.all (fun d => seen.contains d.base.oid)
      && manifestBasesOk (seen ++ [pe.2.full.oid]) rest

/-- Modelled from the spec: the per-request delta-manifest guarantee, commit
by commit in stream order. -/
def commitsBasesOk (repo : Repo) (seen : List ObjectId) :
    List ChangesetId → Bool
  | [] => true
  | c :: rest =>
    manifestBasesOk seen (repo.deltaManifest c)
      && commitsBasesOk repo (seen ++ manifestOids repo c) rest

/-- Items-level ordering invariant: every delta item's base oid is the oid of
an earlier item of the list (or of the ambient `seen` prefix). -/
def deltaBasesIn (seen : List ObjectId) : List PackfileItem → Prop
  | [] => True
  | it :: rest =>
    (∀ o b u ins, it = PackfileItem.DeltaItem o b u ins → b ∈ seen)
      ∧ deltaBasesIn (seen ++ [it.oid]) rest

theorem deltaBasesIn_mono :
    ∀ {l : List PackfileItem} {seen seen' : List ObjectId},
      (∀ x ∈ seen, x ∈ seen') → deltaBasesIn seen l → deltaBasesIn seen' l := by
  intro l
  induction l with
  | nil => intro seen seen' _ _; trivial
  | cons it rest ih =>
    intro seen seen' hsub h
    simp only [deltaBasesIn] at h ⊢
    refine ⟨fun o b u ins he => hsub _ (h.1 o b u ins he), ?_⟩
    refine ih ?_ h.2
    intro x hx
    rcases List.mem_append.mp hx with hx1 | hx2
    · exact List.mem_append.mpr (Or.inl (hsub x hx1))
    · exact List.mem_append.mpr (Or.inr hx2)

theorem deltaBasesIn_append {l1 l2 : List PackfileItem} :
    ∀ {seen : List ObjectId},
      deltaBasesIn seen (l1 ++ l2) ↔
        deltaBasesIn seen l1
        ∧ deltaBasesIn (seen ++ l1.map PackfileItem.oid) l2 := by
  induction l1 with
  | nil => intro seen; simp [deltaBasesIn]
  | cons a l1 ih =>
    intro seen
    simp only [List.cons_append, deltaBasesIn, List.append_eq]
    rw [ih]
    simp only [List.map_cons, List.append_assoc, List.singleton_append, and_assoc]

theorem deltaBasesIn_of_no_delta :
    ∀ {l : List PackfileItem} {seen : List ObjectId},
      (∀ it ∈ l, it.isDelta = false) → deltaBasesIn seen l := by
  intro l
  induction l with
  | nil => intro seen _; trivial
  | cons it rest ih =>
    intro seen h
    refine ⟨?_, ih (fun x hx => h x (List.mem_cons_of_mem _ hx))⟩
    intro o b u ins he
    have := h it (List.mem_cons_self _ _)
    rw [he] at this
    simp [PackfileItem.isDelta] at this

theorem deltaBasesIn_decomp :
    ∀ {pre l : List PackfileItem} {seen : List ObjectId},
      deltaBasesIn seen l →
      ∀ o b u ins post, l = pre ++ PackfileItem.DeltaItem o b u ins :: post →
        b ∈ seen ++ pre.map PackfileItem.oid := by
  intro pre
  induction pre with
  | nil =>
    intro l seen hl o b u ins post heq
    subst heq
    simpa using hl.1 o b u ins rfl
  | cons a pre ih =>
    intro l seen hl o b u ins post heq
    subst heq
    simp only [List.cons_append, deltaBasesIn] at hl
    have := ih hl.2 o b u ins post rfl
    simpa [List.append_assoc] using this

theorem manifest_items_bases {repo : Repo} {di : DeltaInclusion}
    {pii : PackfileItemInclusion} {cs : ChangesetId} :
    ∀ {manifest : List (MPath × GitDeltaManifestEntry)}
      {items : List PackfileItem} {seen : List ObjectId},
      mapE (fun pe => packfile_entry repo di pii cs pe.1 pe.2) manifest =
        Except.ok items →
      manifestBasesOk seen manifest = true →
      deltaBasesIn seen items := by
  intro manifest
  induction manifest with
  | nil =>
    intro items seen h _
    simp only [mapE, Except.ok.injEq] at h
    rw [← h]
    trivial
  | cons pe rest ih =>
    intro items seen h hw
    simp only [mapE] at h
    cases hf : packfile_entry repo di pii cs pe.1 pe.2 with
    | error e => rw [hf] at h; exact Except.noConfusion h
    | ok it =>
      rw [hf] at h
      cases hr : mapE (fun pe => packfile_entry repo di pii cs pe.1 pe.2) rest with
      | error e => rw [hr] at h; exact Except.noConfusion h
      | ok its =>
        rw [hr] at h
        injection h with h2
        rw [← h2]
        simp only [manifestBasesOk, Bool.and_eq_true, List.all_eq_true] at hw
        refine ⟨?_, ?_⟩
        · intro o b u ins he
          rw [he] at hf
          obtain ⟨d, hd, hb⟩ := packfile_entry_ok_delta hf
          have hcont := hw.1 d (delta_base_mem hd)
          rw [← hb]
          simpa using hcont
        · have hoid : it.oid = pe.2.full.oid := packfile_entry_ok_oid hf
          rw [hoid]
          exact ih hr hw.2

theorem commits_items_bases {repo : Repo} {di : DeltaInclusion}
    {pii : PackfileItemInclusion} :
    ∀ {commits : List ChangesetId} {ls : List (List PackfileItem)}
      {seen : List ObjectId},
      mapE (blob_and_tree_packfile_items repo di pii) commits = Except.ok ls →
      commitsBasesOk repo seen commits = true →
      deltaBasesIn seen ls.flatten := by
  intro commits
  induction commits with
  | nil =>
    intro ls seen h _
    simp only [mapE, Except.ok.injEq] at h
    rw [← h]
    trivial
  | cons c rest ih =>
    intro ls seen h hw
    simp only [mapE] at h
    cases hf : blob_and_tree_packfile_items repo di pii c with
    | error e => rw [hf] at h; exact Except.noConfusion h
    | ok its =>
      rw [hf] at h
      cases hr : mapE (blob_and_tree_packfile_items repo di pii) rest with
      | error e => rw [hr] at h; exact Except.noConfusion h
      | ok lss =>
        rw [hr] at h
        injection h with h2
        rw [← h2]
        simp only [commitsBasesOk, Bool.and_eq_true] at hw
        rw [List.flatten_cons, deltaBasesIn_append]
        refine ⟨manifest_items_bases hf hw.1, ?_⟩
        rw [blob_and_tree_items_oids hf]
        exact ih hr hw.2

theorem tag_items_no_delta {repo : Repo} {entries : List BonsaiTagMappingEntry}
    {pii : PackfileItemInclusion} {items : List PackfileItem}
    (h : tag_entries_to_stream repo entries pii = Except.ok items) :
    ∀ it ∈ items, it.isDelta = false := by
  intro it hit
  obtain ⟨e, _, heq⟩ := forall₂_mem_right (mapE_ok_forall₂ h) it hit
  exact (base_packfile_item_ok heq).2

theorem commit_items_no_delta {repo : Repo} {commits : List ChangesetId}
    {pii : PackfileItemInclusion} {items : List PackfileItem}
    (h : commit_packfile_stream repo commits pii = Except.ok items) :
    ∀ it ∈ items, it.isDelta = false := by
  intro it hit
  obtain ⟨c, _, heq⟩ := forall₂_mem_right (mapE_ok_forall₂ h) it hit
  exact (commit_packfile_item_ok heq).2

/-- C2: in a successful response the stream decomposes as tag items ++ commit
items ++ blob/tree items, where the blob/tree segment walks the reversed
`ancestors_difference` commit list (that reversal is the definition of
`target_commit_list`) preserving manifest-entry order within each commit; and
under the spec-modelled delta-manifest guarantee `commitsBasesOk`, every item
emitted as a delta against a base Y has an item for Y (same oid) strictly
earlier in the combined stream. -/
theorem pack_delta_bases_precede (repo : Repo) (request : PackItemStreamRequest)
    (resp : PackItemStreamResponse)
    (hok : generate_pack_item_stream repo request = Except.ok resp)
    (hwf : commitsBasesOk repo []
        (target_commit_list repo (bookmarks repo request.requested_refs)
          request.have_heads) = true) :
    (∃ tag_items commit_items bt_items,
        resp.items = tag_items ++ commit_items ++ bt_items
        ∧ bt_items.map PackfileItem.oid =
            (target_commit_list repo (bookmarks repo request.requested_refs)
              request.have_heads).flatMap (manifestOids repo))
    ∧ ∀ pre o b u ins post,
        resp.items = pre ++ PackfileItem.DeltaItem o b u ins :: post →
          b ∈ pre.map PackfileItem.oid := by
  simp only [generate_pack_item_stream] at hok
  set bks := bookmarks repo request.requested_refs with hbks
  set tcl := target_commit_list repo bks request.have_heads with htcl
  split at hok
  next => exact Except.noConfusion hok
  next refs1 h1 =>
  split at hok
  next => exact Except.noConfusion hok
  next refs2 h2 =>
  split at hok
  next => exact Except.noConfusion hok
  next bt h3 =>
  split at hok
  next => exact Except.noConfusion hok
  next citems h4 =>
  split at hok
  next => exact Except.noConfusion hok
  next titems tcount h5 =>
  injection hok with hok2
  rw [← hok2]
  have hno_t : ∀ it ∈ titems, it.isDelta = false := by
    simp only [tag_packfile_stream] at h5
    cases h6 : tag_entries_to_stream repo (annotatedTagEntries repo bks)
        request.packfile_item_inclusion with
    | error e => rw [h6] at h5; exact Except.noConfusion h5
    | ok titems2 =>
      rw [h6] at h5
      injection h5 with h5b
      injection h5b with hta htb
      rw [← hta]
      exact tag_items_no_delta h6
  have hno_c : ∀ it ∈ citems, it.isDelta = false := commit_items_no_delta h4
  have hbt : deltaBasesIn [] bt := by
    have h3c := h3
    simp only [blob_and_tree_packfile_stream] at h3c
    cases hm : mapE (blob_and_tree_packfile_items repo request.delta_inclusion
        request.packfile_item_inclusion) tcl with
    | error e => rw [hm] at h3c; exact Except.noConfusion h3c
    | ok ls =>
      rw [hm] at h3c
      injection h3c with h3b
      rw [← h3b]
      exact commits_items_bases hm hwf
  have hall : deltaBasesIn [] (titems ++ citems ++ bt) := by
    rw [deltaBasesIn_append]
    constructor
    · refine deltaBasesIn_of_no_delta (fun it hit => ?_)
      rcases List.mem_append.mp hit with hmem | hmem
      · exact hno_t it hmem
      · exact hno_c it hmem
    · exact deltaBasesIn_mono (fun x hx => by simp at hx) hbt
  constructor
  · exact ⟨titems, citems, bt, rfl, blob_and_tree_stream_oids h3⟩
  · intro pre o b u ins post heq
    have := deltaBasesIn_decomp hall o b u ins post heq
    simpa using this

/-- Witness for C2 at a concrete repo and request. -/
theorem pack_delta_bases_precede_witness :
    (∃ tag_items commit_items bt_items,
        respMain.items = tag_items ++ commit_items ++ bt_items
        ∧ bt_items.map PackfileItem.oid =
            (target_commit_list repoMain
              (bookmarks repoMain requestBasic.requested_refs)
              requestBasic.have_heads).flatMap (manifestOids repoMain))
    ∧ ∀ pre o b u ins post,
        respMain.items = pre ++ PackfileItem.DeltaItem o b u ins :: post →
          b ∈ pre.map PackfileItem.oid :=
  pack_delta_bases_precede repoMain requestBasic respMain rfl (by decide)

/-- `requestBasic` with `Peeled` tag inclusion. -/
def requestPeeled : PackItemStreamRequest :=
  { requestBasic with tag_inclusion := TagInclusion.Peeled }

/-- C4 counterexample: under `TagInclusion::Peeled` the annotated tag object
(oid 42) still appears, once, in the stream: the tag sub-stream never
consults `tag_inclusion`. -/
theorem tag_object_emitted_under_peeled :
    (generate_pack_item_stream repoMain requestPeeled).toOption.map
      (fun resp => resp.items.countP (fun it => it.oid == 42)) = some 1 := rfl

/-- C4 (amended): an annotated tag object T selected by the request appears
exactly once in the stream for every `tag_inclusion` value — `AsIs`, `Peeled`
and `WithTarget` alike (the tag sub-stream is independent of that setting),
provided T is not also a commit object or a tree/blob object of the request. -/
theorem tag_object_emitted_once_all_modes (repo : Repo)
    (request : PackItemStreamRequest) (T : ObjectId)
    (h1 : (annotatedTagEntries repo (bookmarks repo request.requested_refs)).countP
        (fun e => e.tag_hash == T) = 1)
    (h2 : ∀ cs ∈ target_commit_list repo (bookmarks repo request.requested_refs)
        request.have_heads, lookup? repo.bonsaiGit cs ≠ some T)
    (h3 : T ∉ (target_commit_list repo (bookmarks repo request.requested_refs)
        request.have_heads).flatMap (manifestOids repo)) :
    ∀ ti resp,
      generate_pack_item_stream repo { request with tag_inclusion := ti } =
        Except.ok resp →
      resp.items.countP (fun it => it.oid == T) = 1 := by
  intro ti resp hok
  have hproj1 : ({ request with tag_inclusion := ti } :
      PackItemStreamRequest).requested_refs = request.requested_refs := rfl
  have hproj2 : ({ request with tag_inclusion := ti } :
      PackItemStreamRequest).have_heads = request.have_heads := rfl
  have hproj3 : ({ request with tag_inclusion := ti } :
      PackItemStreamRequest).delta_inclusion = request.delta_inclusion := rfl
  have hproj4 : ({ request with tag_inclusion := ti } :
      PackItemStreamRequest).packfile_item_inclusion =
      request.packfile_item_inclusion := rfl
  have hproj5 : ({ request with tag_inclusion := ti } :
      PackItemStreamRequest).requested_symrefs = request.requested_symrefs := rfl
  simp only [generate_pack_item_stream, hproj1, hproj2, hproj3, hproj4,
    hproj5] at hok
  set bks := bookmarks repo request.requested_refs with hbks
  set tcl := target_commit_list repo bks request.have_heads with htcl
  split at hok
  next => exact Except.noConfusion hok
  next refs1 hr1 =>
  split at hok
  next => exact Except.noConfusion hok
  next refs2 hr2 =>
  split at hok
  next => exact Except.noConfusion hok
  next bt hr3 =>
  split at hok
  next => exact Except.noConfusion hok
  next citems hr4 =>
  split at hok
  next => exact Except.noConfusion hok
  next titems tcount hr5 =>
  injection hok with hok2
  rw [← hok2]
  show (titems ++ citems ++ bt).countP (fun it => it.oid == T) = 1
  rw [List.countP_append, List.countP_append]
  have ctag : titems.countP (fun it => it.oid == T) = 1 := by
    simp only [tag_packfile_stream] at hr5
    cases h6 : tag_entries_to_stream repo (annotatedTagEntries repo bks)
        request.packfile_item_inclusion with
    | error e => rw [h6] at hr5; exact Except.noConfusion hr5
    | ok titems2 =>
      rw [h6] at hr5
      injection hr5 with h5b
      injection h5b with hta htb
      rw [← hta]
      have hcount := congrArg (List.countP (fun o => o == T))
        (tag_entries_to_stream_oids h6)
      simpa [List.countP_map, Function.comp_def, h1] using hcount
  have ccommit : citems.countP (fun it => it.oid == T) = 0 := by
    rw [List.countP_eq_zero]
    intro it hit
    obtain ⟨cs, hcs, heq⟩ := forall₂_mem_right (mapE_ok_forall₂ hr4) it hit
    have hlk := (commit_packfile_item_ok heq).1
    have hne := h2 cs hcs
    simp only [beq_iff_eq]
    intro hoid
    rw [hoid] at hlk
    exact hne hlk
  have cbt : bt.countP (fun it => it.oid == T) = 0 := by
    rw [List.countP_eq_zero]
    intro it hit
    have hoids := blob_and_tree_stream_oids hr3
    simp only [beq_iff_eq]
    intro hoid
    have : it.oid ∈ bt.map PackfileItem.oid := List.mem_map_of_mem _ hit
    rw [hoids, hoid] at this
    exact h3 this
  rw [ctag, ccommit, cbt]

/-- Witness for the amended C4 at a concrete repo and request. -/
theorem tag_object_emitted_once_witness :
    respMain.items.countP (fun it => it.oid == 42) = 1 :=
  tag_object_emitted_once_all_modes repoMain requestBasic 42 (by decide)
    (by decide) (by decide) TagInclusion.AsIs respMain rfl

/-! ## Association-list lemmas for the hash-map embedding -/

theorem lookup?_cons {α β : Type} [DecidableEq α] (k1 : α) (v1 : β)
    (rest : List (α × β)) (a : α) :
    lookup? ((k1, v1) :: rest) a = if k1 = a then some v1 else lookup? rest a := rfl

theorem lookup?_not_mem_keys {α β : Type} [DecidableEq α] :
    ∀ {l : List (α × β)} {a : α}, a ∉ l.map Prod.fst → lookup? l a = none := by
  intro l
  induction l with
  | nil => intro a _; rfl
  | cons kv rest ih =>
    intro a h
    obtain ⟨k1, v1⟩ := kv
    simp only [List.map_cons, List.mem_cons, not_or] at h
    have hne : ¬ k1 = a := fun he => h.1 (Eq.symm he)
    rw [lookup?_cons, if_neg hne]
    exact ih h.2

theorem lookup?_append_single_ne {α β : Type} [DecidableEq α] {k k' : α} {v : β}
    (hne : k' ≠ k) :
    ∀ (l : List (α × β)), lookup? (l ++ [(k, v)]) k' = lookup? l k' := by
  intro l
  induction l with
  | nil =>
    have hne2 : ¬ k = k' := fun h => hne (Eq.symm h)
    simp only [List.nil_append, lookup?_cons, if_neg hne2]
  | cons kv rest ih =>
    obtain ⟨k1, v1⟩ := kv
    rw [List.cons_append, lookup?_cons, lookup?_cons, ih]

theorem lookup?_append_single_self {α β : Type} [DecidableEq α] {k : α} {v : β} :
    ∀ {l : List (α × β)}, k ∉ l.map Prod.fst →
      lookup? (l ++ [(k, v)]) k = some v := by
  intro l
  induction l with
  | nil =>
    intro _
    simp [lookup?_cons]
  | cons kv rest ih =>
    intro h
    obtain ⟨k1, v1⟩ := kv
    simp only [List.map_cons, List.mem_cons, not_or] at h
    have hne : ¬ k1 = k := fun he => h.1 (Eq.symm he)
    rw [List.cons_append, lookup?_cons, if_neg hne]
    exact ih h.2

theorem map_replace_cons {α β : Type} [DecidableEq α] (k : α) (v : β) (k1 : α)
    (v1 : β) (rest : List (α × β)) :
    ((k1, v1) :: rest).map (fun kv => if kv.1 = k then (k, v) else kv) =
      (if k1 = k then (k, v) else (k1, v1))
        :: rest.map (fun kv => if kv.1 = k then (k, v) else kv) := rfl

theorem lookup?_map_replace_self {α β : Type} [DecidableEq α] {k : α} {v : β} :
    ∀ {l : List (α × β)}, k ∈ l.map Prod.fst →
      lookup? (l.map (fun kv => if kv.1 = k then (k, v) else kv)) k = some v := by
  intro l
  induction l with
  | nil => intro h; exact absurd h (List.not_mem_nil k)
  | cons kv rest ih =>
    intro h
    obtain ⟨k1, v1⟩ := kv
    by_cases h1 : k1 = k
    · rw [map_replace_cons, if_pos h1, lookup?_cons, if_pos rfl]
    · have hrest : k ∈ rest.map Prod.fst := by
        simp only [List.map_cons] at h
        rcases List.mem_cons.mp h with he | hm
        · exact absurd (Eq.symm he) h1
        · exact hm
      rw [map_replace_cons, if_neg h1, lookup?_cons, if_neg h1]
      exact ih hrest

theorem lookup?_map_replace_ne {α β : Type} [DecidableEq α] {k k' : α} {v : β}
    (hne : k' ≠ k) :
    ∀ (l : List (α × β)),
      lookup? (l.map (fun kv => if kv.1 = k then (k, v) else kv)) k' =
        lookup? l k' := by
  intro l
  induction l with
  | nil => rfl
  | cons kv rest ih =>
    obtain ⟨k1, v1⟩ := kv
    by_cases h1 : k1 = k
    · have h2 : ¬ k1 = k' := fun h => hne (h1 ▸ Eq.symm h)
      have h3 : ¬ k = k' := fun h => hne (Eq.symm h)
      rw [map_replace_cons, if_pos h1, lookup?_cons, if_neg h3, lookup?_cons,
        if_neg h2]
      exact ih
    · rw [map_replace_cons, if_neg h1, lookup?_cons, lookup?_cons, ih]

theorem lookup?_insertKV_self {α β : Type} [DecidableEq α]
    (l : List (α × β)) (k : α) (v : β) :
    lookup? (insertKV l k v) k = some v := by
  rw [insertKV]
  split
  next hc => exact lookup?_map_replace_self (by simpa using hc)
  next hc => exact lookup?_append_single_self (by simpa using hc)

theorem lookup?_insertKV_ne {α β : Type} [DecidableEq α]
    (l : List (α × β)) (k k' : α) (v : β) (hne : k' ≠ k) :
    lookup? (insertKV l k v) k' = lookup? l k' := by
  rw [insertKV]
  split
  next hc => exact lookup?_map_replace_ne hne l
  next hc => exact lookup?_append_single_ne hne l

theorem lookup?_of_mem_nodup {α β : Type} [DecidableEq α] :
    ∀ {l : List (α × β)} {a : α} {v : β},
      (l.map Prod.fst).Nodup → (a, v) ∈ l → lookup? l a = some v := by
  intro l
  induction l with
  | nil => intro a v _ h; exact absurd h (List.not_mem_nil _)
  | cons kv rest ih =>
    intro a v hnd hmem
    obtain ⟨k1, v1⟩ := kv
    simp only [List.map_cons, List.nodup_cons] at hnd
    rcases List.mem_cons.mp hmem with he | hm
    · obtain ⟨he1, he2⟩ := Prod.mk.injEq .. ▸ he
      rw [lookup?_cons, if_pos (Eq.symm he1), he2]
    · have hk1 : ¬ k1 = a := by
        intro h
        subst h
        exact hnd.1 (List.mem_map.mpr ⟨(k1, v), hm, rfl⟩)
      rw [lookup?_cons, if_neg hk1]
      exact ih hnd.2 hm

theorem withName_ne_of_name_ne {a b : String} (h : a ≠ b) :
    BookmarkKey.withName a ≠ BookmarkKey.withName b := by
  intro he
  exact h (congrArg BookmarkKey.name he)

theorem lookup?_foldl_insert_of_ne :
    ∀ (M : List (String × ChangesetId)) (acc : List (BookmarkKey × ChangesetId))
      (k : BookmarkKey), (∀ nv ∈ M, BookmarkKey.withName nv.1 ≠ k) →
      lookup? (M.foldl
        (fun a nv => insertKV a (BookmarkKey.withName nv.1) nv.2) acc) k =
        lookup? acc k := by
  intro M
  induction M with
  | nil => intro acc k _; rfl
  | cons nv rest ih =>
    intro acc k h
    simp only [List.foldl_cons]
    rw [ih _ k (fun x hx => h x (List.mem_cons_of_mem _ hx))]
    exact lookup?_insertKV_ne acc _ k nv.2
      (fun he => h nv (List.mem_cons_self _ _) (Eq.symm he))

theorem lookup?_foldl_insert_withName :
    ∀ (M : List (String × ChangesetId)) (acc : List (BookmarkKey × ChangesetId))
      (n : String), (M.map Prod.fst).Nodup →
      lookup? (M.foldl
        (fun a nv => insertKV a (BookmarkKey.withName nv.1) nv.2) acc)
        (BookmarkKey.withName n) =
        (lookup? M n).or (lookup? acc (BookmarkKey.withName n)) := by
  intro M
  induction M with
  | nil => intro acc n _; rfl
  | cons nv rest ih =>
    intro acc n hnd
    obtain ⟨n0, v0⟩ := nv
    simp only [List.map_cons, List.nodup_cons] at hnd
    simp only [List.foldl_cons]
    by_cases h0 : n0 = n
    · subst h0
      rw [lookup?_foldl_insert_of_ne rest _ _ ?hne]
      case hne =>
        intro x hx he
        exact hnd.1 (List.mem_map.mpr ⟨x, hx, congrArg BookmarkKey.name he⟩)
      rw [lookup?_insertKV_self, lookup?_cons, if_pos rfl]
      rfl
    · rw [ih _ n hnd.2,
        lookup?_insertKV_ne acc (BookmarkKey.withName n0) (BookmarkKey.withName n)
          v0 (withName_ne_of_name_ne (fun h => h0 (Eq.symm h))),
        lookup?_cons, if_neg h0]

theorem lookup?_filtered_IWV :
    ∀ (sb : List (BookmarkKey × ChangesetId)) (M : List (String × ChangesetId))
      (b : BookmarkKey),
      lookup? (sb.filterMap
        (fun bc => keepBookmark (RequestedRefs.IncludedWithValue M) bc.1 bc.2)) b =
        if b ∈ sb.map Prod.fst then lookup? M b.name else none := by
  intro sb M
  induction sb with
  | nil => intro b; simp [lookup?]
  | cons bc rest ih =>
    intro b
    obtain ⟨b0, c0⟩ := bc
    cases hm : lookup? M b0.name with
    | some v =>
      have hk : keepBookmark (RequestedRefs.IncludedWithValue M) b0 c0 =
          some (b0, v) := by
        simp [keepBookmark, hm]
      rw [List.filterMap_cons, hk, lookup?_cons]
      by_cases hb : b0 = b
      · subst hb
        rw [if_pos rfl, if_pos (by simp), hm]
      · rw [if_neg hb, ih b]
        simp only [List.map_cons, List.mem_cons]
        by_cases hbr : b ∈ rest.map Prod.fst
        · rw [if_pos hbr, if_pos (Or.inr hbr)]
        · rw [if_neg hbr, if_neg (by
            intro hc
            rcases hc with hc | hc
            · exact hb (Eq.symm hc)
            · exact hbr hc)]
    | none =>
      have hk : keepBookmark (RequestedRefs.IncludedWithValue M) b0 c0 = none := by
        simp [keepBookmark, hm]
      rw [List.filterMap_cons, hk, ih b]
      simp only [List.map_cons, List.mem_cons]
      by_cases hbr : b ∈ rest.map Prod.fst
      · rw [if_pos hbr, if_pos (Or.inr hbr)]
      · rw [if_neg hbr]
        by_cases hb : b = b0
        · rw [if_pos (Or.inl hb)]
          subst hb
          exact Eq.symm hm
        · rw [if_neg (by
            intro hc
            rcases hc with hc | hc
            · exact hb hc
            · exact hbr hc)]

/-- C6: under `RequestedRefs::IncludedWithValue(M)` the bookmarks operation
keeps a server bookmark b exactly when `b.name ∈ keys(M)` (with `M[b.name]`
as its target), and injects every pair of M under a synthetic key built from
the name; hence looking up any server bookmark returns `M[b.name]`, and every
name of M appears with target `M[name]`. -/
theorem bookmarks_included_with_value_spec (repo : Repo)
    (M : List (String × ChangesetId)) (hM : (M.map Prod.fst).Nodup) :
    (∀ b cs, (b, cs) ∈ repo.serverBookmarks →
        lookup? (bookmarks repo (RequestedRefs.IncludedWithValue M)) b =
          lookup? M b.name)
    ∧ (∀ n v, (n, v) ∈ M →
        lookup? (bookmarks repo (RequestedRefs.IncludedWithValue M))
          (BookmarkKey.withName n) = some v) := by
  have hbook : bookmarks repo (RequestedRefs.IncludedWithValue M) =
      M.foldl (fun a nv => insertKV a (BookmarkKey.withName nv.1) nv.2)
        (repo.serverBookmarks.filterMap
          (fun bc => keepBookmark (RequestedRefs.IncludedWithValue M)
            bc.1 bc.2)) := rfl
  constructor
  · intro b cs hmem
    rw [hbook]
    obtain ⟨nm, cat⟩ := b
    cases cat with
    | Tag =>
      rw [lookup?_foldl_insert_of_ne M _ _ ?hne]
      case hne =>
        intro nv _ he
        exact absurd (congrArg BookmarkKey.category he)
          (by simp [BookmarkKey.withName])
      rw [lookup?_filtered_IWV]
      rw [if_pos (List.mem_map.mpr ⟨(⟨nm, BookmarkCategory.Tag⟩, cs), hmem, rfl⟩)]
    | Branch =>
      have hb : (⟨nm, BookmarkCategory.Branch⟩ : BookmarkKey) =
          BookmarkKey.withName nm := rfl
      rw [hb, lookup?_foldl_insert_withName M _ nm hM]
      show (lookup? M nm).or
        (lookup? _ (BookmarkKey.withName nm)) = lookup? M nm
      cases hm : lookup? M nm with
      | some v => rfl
      | none =>
        show lookup? (repo.serverBookmarks.filterMap _)
          (BookmarkKey.withName nm) = none
        rw [lookup?_filtered_IWV]
        split
        · exact hm
        · rfl
  · intro n v hmem
    rw [hbook, lookup?_foldl_insert_withName M _ n hM,
      lookup?_of_mem_nodup hM hmem]
    rfl

/-- A small repo with one branch and one tag bookmark, for the C6 witness. -/
def repoC6 : Repo where
  serverBookmarks :=
    [(⟨"heads/main", BookmarkCategory.Branch⟩, 1),
     (⟨"tags/v1", BookmarkCategory.Tag⟩, 2)]
  bonsaiGit := []
  tagEntries := []
  symrefs := []
  ancestorsDifference := fun _ _ => []
  deltaManifest := fun _ => []
  gitObjectBytes := fun _ => none
  nonBlobGitObjectBytes := fun _ => none
  packfileBaseItem := fun _ => none
  deltaChunk := fun _ _ _ _ _ => []

/-- A requested-refs value map keeping `heads/main` (retargeted to 7) and
supplying a ref unknown to the server. -/
def mapC6 : List (String × ChangesetId) := [("heads/main", 7), ("heads/new", 9)]

/-- Witness for C6 at a concrete repo and value map. -/
theorem bookmarks_included_with_value_witness :
    (∀ b cs, (b, cs) ∈ repoC6.serverBookmarks →
        lookup? (bookmarks repoC6 (RequestedRefs.IncludedWithValue mapC6)) b =
          lookup? mapC6 b.name)
    ∧ (∀ n v, (n, v) ∈ mapC6 →
        lookup? (bookmarks repoC6 (RequestedRefs.IncludedWithValue mapC6))
          (BookmarkKey.withName n) = some v) :=
  bookmarks_included_with_value_spec repoC6 mapC6 (by decide)

theorem refs_to_include_singleton (repo : Repo) (b : BookmarkKey)
    (cs : ChangesetId) (ti : TagInclusion) :
    refs_to_include repo [(b, cs)] ti =
      match ref_target_for (bonsai_git_mappings_by_bonsai repo [cs])
          (tagNameMap repo) b cs ti with
      | Except.error e => Except.error e
      | Except.ok r => Except.ok [r] := by
  cases h : ref_target_for (bonsai_git_mappings_by_bonsai repo [cs])
      (tagNameMap repo) b cs ti with
  | error e => simp [refs_to_include, mapE, h]
  | ok r => simp [refs_to_include, mapE, h]

theorem bonsai_git_singleton (repo : Repo) (cs : ChangesetId) :
    lookup? (bonsai_git_mappings_by_bonsai repo [cs]) cs =
      lookup? repo.bonsaiGit cs := by
  cases hl : lookup? repo.bonsaiGit cs with
  | some oid => simp [bonsai_git_mappings_by_bonsai, hl, lookup?]
  | none => simp [bonsai_git_mappings_by_bonsai, hl, lookup?]

/-- C7: in `refs_to_include`, a tag-category bookmark that has a bonsai-tag
mapping entry T yields `Plain T` under `AsIs`; under `Peeled` it yields
`Plain` of the commit object (failing when the changeset has no bonsai-git
mapping); under `WithTarget` it yields `WithMetadata T ("peeled:" ++ hex of
the commit object id)`. -/
theorem refs_to_include_tag_spec (repo : Repo) (b : BookmarkKey)
    (cs : ChangesetId) (tagOid : ObjectId)
    (hTag : b.category = BookmarkCategory.Tag)
    (hEntry : lookup? (tagNameMap repo) b.name = some tagOid) :
    (refs_to_include repo [(b, cs)] TagInclusion.AsIs =
        Except.ok [("refs/" ++ b.name, RefTarget.Plain tagOid)])
    ∧ (∀ c, lookup? repo.bonsaiGit cs = some c →
        refs_to_include repo [(b, cs)] TagInclusion.Peeled =
            Except.ok [("refs/" ++ b.name, RefTarget.Plain c)]
        ∧ refs_to_include repo [(b, cs)] TagInclusion.WithTarget =
            Except.ok [("refs/" ++ b.name,
              RefTarget.WithMetadata tagOid ("peeled:" ++ oidHex c))])
    ∧ (lookup? repo.bonsaiGit cs = none →
        ∃ msg, refs_to_include repo [(b, cs)] TagInclusion.Peeled =
          Except.error msg) := by
  have hTagb : b.isTag = true := by simp [BookmarkKey.isTag, hTag]
  refine ⟨?_, ?_, ?_⟩
  · rw [refs_to_include_singleton]
    simp only [ref_target_for, hTagb, if_true, hEntry]
  · intro c hc
    have hgm := (bonsai_git_singleton repo cs).trans hc
    constructor
    · rw [refs_to_include_singleton]
      simp only [ref_target_for, hTagb, if_true, hgm]
    · rw [refs_to_include_singleton]
      simp only [ref_target_for, hTagb, if_true, hEntry, hgm]
  · intro hc
    have hgm := (bonsai_git_singleton repo cs).trans hc
    rw [refs_to_include_singleton]
    simp only [ref_target_for, hTagb, if_true, hgm]
    exact ⟨_, rfl⟩

/-- Witness for C7 on `repoMain`'s annotated tag `tags/v1`. -/
theorem refs_to_include_tag_witness :
    refs_to_include repoMain [(⟨"tags/v1", BookmarkCategory.Tag⟩, 1)]
        TagInclusion.Peeled =
      Except.ok [("refs/tags/v1", RefTarget.Plain 10)] :=
  ((refs_to_include_tag_spec repoMain ⟨"tags/v1", BookmarkCategory.Tag⟩ 1 42
    rfl rfl).2.1 10 rfl).1

/-- C8: `include_symrefs` under `IncludeHead(fmt)` looks up the HEAD symref
entry, resolves its target ref in the already-computed ref map, and inserts
`HEAD ↦ symref_target(target_ref_name, commit_id, fmt)`, where
`symref_target` yields `Plain` under `NameOnly` and
`WithMetadata(oid, "symref-target:" ++ name)` under `NameWithTarget`; given
the HEAD symref exists, it fails exactly when the symref's target ref name is
absent from the resolved ref map. -/
theorem include_symrefs_head_spec (repo : Repo) (f : SymrefFormat)
    (refs : List (String × RefTarget)) (head_ref : SymrefEntry)
    (hfind : headSymref repo = some head_ref) :
    (∀ nm oid, symref_target nm oid SymrefFormat.NameOnly = RefTarget.Plain oid
      ∧ symref_target nm oid SymrefFormat.NameWithTarget =
          RefTarget.WithMetadata oid ("symref-target:" ++ nm))
    ∧ head_ref.symref_name = "HEAD"
    ∧ (∀ t, lookup? refs head_ref.ref_name_with_type = some t →
        include_symrefs repo (RequestedSymrefs.IncludeHead f) refs =
          Except.ok (insertKV refs head_ref.symref_name
            (symref_target head_ref.ref_name_with_type t.id f)))
    ∧ (lookup? refs head_ref.ref_name_with_type = none →
        ∃ msg, include_symrefs repo (RequestedSymrefs.IncludeHead f) refs =
          Except.error msg) := by
  refine ⟨fun nm oid => ⟨rfl, rfl⟩, ?_, ?_, ?_⟩
  · have hp := List.find?_some (by simpa [headSymref] using hfind)
    simpa [beq_iff_eq] using hp
  · intro t ht
    simp only [include_symrefs, headSymref] at hfind ⊢
    simp only [hfind, ht, List.foldl_cons, List.foldl_nil]
  · intro hnone
    simp only [include_symrefs, headSymref] at hfind ⊢
    simp only [hfind, hnone]
    exact ⟨_, rfl⟩

/-- Witness for C8 on `repoMain`'s HEAD symref. -/
theorem include_symrefs_head_witness :
    include_symrefs repoMain
        (RequestedSymrefs.IncludeHead SymrefFormat.NameWithTarget)
        [("refs/heads/main", RefTarget.Plain 10)] =
      Except.ok (insertKV [("refs/heads/main", RefTarget.Plain 10)] "HEAD"
        (symref_target "refs/heads/main" (RefTarget.Plain 10).id
          SymrefFormat.NameWithTarget)) :=
  ((include_symrefs_head_spec repoMain SymrefFormat.NameWithTarget
    [("refs/heads/main", RefTarget.Plain 10)] ⟨"HEAD", "refs/heads/main"⟩
    rfl).2.2.1 (RefTarget.Plain 10) rfl)

theorem contains_filter_ne {x h : GitSha1} (hne : h ≠ x) (l : List GitSha1) :
    (l.filter (fun s => s != x)).contains h = l.contains h := by
  rw [Bool.eq_iff_iff]
  simp [List.mem_filter, hne]

theorem filterMap_dedup_filter_ne {β : Type} (f : GitSha1 → Option β)
    (x : GitSha1) (hx : f x = none) :
    ∀ (l : List GitSha1),
      ((l.filter (fun s => s != x)).dedup).filterMap f =
        (l.dedup).filterMap f := by
  intro l
  induction l with
  | nil => rfl
  | cons a l ih =>
    by_cases hax : a = x
    · subst hax
      rw [List.filter_cons_of_neg (by simp)]
      rw [ih]
      by_cases hmem : a ∈ l
      · rw [List.dedup_cons_of_mem hmem]
      · rw [List.dedup_cons_of_not_mem hmem, List.filterMap_cons, hx]
    · rw [List.filter_cons_of_pos (by simp [hax])]
      by_cases hmem : a ∈ l
      · have hmem2 : a ∈ l.filter (fun s => s != x) :=
          List.mem_filter.mpr ⟨hmem, by simp [hax]⟩
        rw [List.dedup_cons_of_mem hmem2, List.dedup_cons_of_mem hmem, ih]
      · have hmem2 : a ∉ l.filter (fun s => s != x) :=
          fun hc => hmem (List.mem_filter.mp hc).1
        rw [List.dedup_cons_of_not_mem hmem2, List.dedup_cons_of_not_mem hmem,
          List.filterMap_cons, List.filterMap_cons]
        cases hfa : f a with
        | none => simp only [ih]
        | some b => simp only [ih]

theorem tagged_commits_filter_ne (repo : Repo) (x : GitSha1)
    (htag : ∀ e ∈ repo.tagEntries, e.tag_hash ≠ x) :
    ∀ (l : List GitSha1),
      tagged_commits repo (l.filter (fun s => s != x)) =
        tagged_commits repo l := by
  intro l
  by_cases hemp : l.isEmpty = true
  · have hl : l = [] := List.isEmpty_iff.mp hemp
    subst hl
    rfl
  · by_cases hemp2 : (l.filter (fun s => s != x)).isEmpty = true
    · have hall : ∀ s ∈ l, s = x := by
        have hfe : l.filter (fun s => s != x) = [] := List.isEmpty_iff.mp hemp2
        intro s hs
        have := List.filter_eq_nil_iff.mp hfe s hs
        simpa using this
      have hte : repo.tagEntries.filter (fun e => l.contains e.tag_hash) = [] := by
        rw [List.filter_eq_nil_iff]
        intro e he hc
        have hmem : e.tag_hash ∈ l := by simpa using hc
        exact htag e he (hall _ hmem)
      unfold tagged_commits
      rw [if_pos hemp2, if_neg hemp]
      simp only [hte]
      simp
    · unfold tagged_commits
      rw [if_neg hemp2, if_neg hemp]
      have hfe : repo.tagEntries.filter
          (fun e => (l.filter (fun s => s != x)).contains e.tag_hash) =
          repo.tagEntries.filter (fun e => l.contains e.tag_hash) :=
        List.filter_congr (fun e he => contains_filter_ne (htag e he) l)
      rw [hfe]

/-- C9: a git object id with neither a bonsai-git mapping row nor a tag-hash
mapping entry contributes nothing to `git_shas_to_bonsais` and causes no
error: removing all its occurrences from the input leaves the (successful)
output unchanged. -/
theorem git_shas_to_bonsais_drops_unknown (repo : Repo) (x : GitSha1)
    (oids : List GitSha1) (hmap : gitToBonsai repo x = none)
    (htag : ∀ e ∈ repo.tagEntries, e.tag_hash ≠ x) :
    git_shas_to_bonsais repo oids =
      git_shas_to_bonsais repo (oids.filter (fun s => s != x)) := by
  have hent : ((oids.filter (fun s => s != x)).dedup).filterMap
      (fun sha => (gitToBonsai repo sha).map (fun bcs => (sha, bcs))) =
      (oids.dedup).filterMap
      (fun sha => (gitToBonsai repo sha).map (fun bcs => (sha, bcs))) :=
    filterMap_dedup_filter_ne _ x (by rw [hmap]; rfl) oids
  simp only [git_shas_to_bonsais]
  rw [hent, List.filter_comm, tagged_commits_filter_ne repo x htag]

/-- Witness for C9: object id 99 is neither a commit nor a tag hash in
`repoMain`; dropping it from the fetch input leaves the translation
unchanged. -/
theorem git_shas_to_bonsais_drops_unknown_witness :
    git_shas_to_bonsais repoMain [99, 10] =
      git_shas_to_bonsais repoMain ([99, 10].filter (fun s => s != 99)) :=
  git_shas_to_bonsais_drops_unknown repoMain 99 [99, 10] rfl (by decide)
